import Mathlib

/-!
Verification of the django-dag graph core (`django_dag/models/backends/base.py`,
`django_dag/models/backends/standard.py`, `django_dag/models/order_control.py`,
`django_dag/exceptions.py` and the concrete integer sorters in
`tests/unit/testapp/models/ordersort.py`).

Nodes are identified by their primary key (a natural number).  Edges are the
rows of the edge model: each row has its own primary key `eid`, a `parent`
and a `child` column, so parallel edges between the same pair of nodes are
distinct records, exactly as in the Django model.  A graph is the list of edge
rows in database order.

Python exceptions are modelled with `Except`: a function that can raise
returns `Except ε α`, and a raised exception is the `Except.error` value.
The functions are pure: the only effect of a failed check is its error value,
mirroring "no side effect beyond raising".
-/

namespace DjangoDag

/-- One row of the edge model: primary key `eid`, `parent_id`, `child_id`. -/
structure Edge where
  eid : Nat
  parent : Nat
  child : Nat
deriving DecidableEq, Repr

/-- The adjacency snapshot the traversal code reads: the rows of the edge
model in database order. -/
structure Graph where
  edges : List Edge
deriving DecidableEq, Repr

/-- `node.children.all()`: children of `n`, one entry per edge row. -/
def childrenOf (g : Graph) (n : Nat) : List Nat :=
  (g.edges.filter fun e => e.parent == n).map Edge.child

/-- `node.parents.all()`: parents of `n`, one entry per edge row. -/
def parentsOf (g : Graph) (n : Nat) : List Nat :=
  (g.edges.filter fun e => e.child == n).map Edge.parent

/-- `edge_model.objects.filter(parent=self)`: the outgoing edge rows of `n`. -/
def edgesFrom (g : Graph) (n : Nat) : List Edge :=
  g.edges.filter fun e => e.parent == n

/-- `edge_model.objects.filter(parent=p, child=c)`: all parallel edge rows
between `p` and `c`. -/
def edgesBetween (g : Graph) (p c : Nat) : List Edge :=
  g.edges.filter fun e => e.parent == p && e.child == c

/-- Every node pk mentioned by some edge row. -/
def nodesList (g : Graph) : List Nat :=
  g.edges.map Edge.parent ++ g.edges.map Edge.child

/-!
`ProtoNode._get_descendant` / `_get_ancestor` (standard.py) are recursive
set-unions over the adjacency: `res = ⋃ { {f} ∪ walk(f) | f ∈ adj(self) }`.
Both are instances of the same walk with `children.all()` resp.
`parents.all()` as the adjacency.  The Python recursion terminates because
the graph is acyclic; the embedding makes this explicit with a fuel
parameter, chosen large enough below (`defaultFuel`) that on an acyclic
graph the walk is exhaustive.  The `cached_results` dict of the source is a
per-call memo: the cache starts empty, is only written after a node's set is
fully computed, and therefore never changes the resulting set, only the
running time; the embedding keeps the value semantics.
-/

/-- The recursive set-union walk of `_get_descendant`/`_get_ancestor`,
parameterised by the adjacency function. -/
def walkSet (adj : Nat → List Nat) : Nat → Nat → Finset Nat
  | 0, _ => ∅
  | fuel + 1, n => (adj n).foldr (fun f acc => insert f (walkSet adj fuel f ∪ acc)) ∅

/-- Nodes reached from `s` by following the adjacency exactly `k` times. -/
def reachAt (adj : Nat → List Nat) (s : Nat) : Nat → Finset Nat
  | 0 => {s}
  | k + 1 => (reachAt adj s k).biUnion fun n => (adj n).toFinset

/-- Fuel that is sufficient on an acyclic graph: one more than the edge count. -/
def defaultFuel (g : Graph) : Nat :=
  g.edges.length + 1

/-- `get_descendant_pks()` as a set (python builds a `set` and lists it). -/
def descendantSet (g : Graph) (n : Nat) : Finset Nat :=
  walkSet (childrenOf g) (defaultFuel g) n

/-- `get_ancestor_pks()` as a set. -/
def ancestorSet (g : Graph) (n : Nat) : Finset Nat :=
  walkSet (parentsOf g) (defaultFuel g) n

/-- `get_ancestor_pks()`: the ancestor set listed (the python `list(set)`
order is arbitrary; the embedding lists it in ascending pk order). -/
def get_ancestor_pks (g : Graph) (n : Nat) : List Nat :=
  (ancestorSet g n).sort (· ≤ ·)

/-- `get_descendant_pks()` listed, as for `get_ancestor_pks`. -/
def get_descendant_pks (g : Graph) (n : Nat) : List Nat :=
  (descendantSet g n).sort (· ≤ ·)

/-- `get_clan_pks()` = `get_ancestor_pks() + [self.pk] + get_descendant_pks()`. -/
def get_clan_pks (g : Graph) (n : Nat) : List Nat :=
  get_ancestor_pks g n ++ [n] ++ get_descendant_pks g n

/-- The `clan` property: `self.ancestors | {self} | self.descendants`. -/
def clanSet (g : Graph) (n : Nat) : Finset Nat :=
  ancestorSet g n ∪ {n} ∪ descendantSet g n

/-- `BaseNode.circular_checker(parent, child)` (base.py):
raises `ValidationError('Self links are not allowed.')` on a self link, else
`ValidationError('The object is an ancestor.')` when `child.pk` is in
`parent.get_ancestor_pks()`; otherwise returns normally.  The source tests
membership in the pk list; the embedding tests the identical membership in
the underlying set (`mem_get_ancestor_pks` below records the equivalence).
The function reads the graph and returns only a unit or an error: no side
effect beyond raising. -/
def circular_checker (g : Graph) (parent child : Nat) : Except String Unit :=
  if parent = child then
    .error "Self links are not allowed."
  else if child ∈ ancestorSet g parent then
    .error "The object is an ancestor."
  else
    .ok ()

/-- Primary key for a freshly inserted edge row. -/
def freshEid (g : Graph) : Nat :=
  g.edges.length + 1

/-- `BaseNode.add_child(descendant)` without ordering: builds the edge and
saves it; `Edge.save` (models/__init__.py) runs `circular_checker` first and
only then persists the row. -/
def add_child (g : Graph) (parent child : Nat) : Except String Graph :=
  match circular_checker g parent child with
  | .error e => .error e
  | .ok _ => .ok ⟨g.edges ++ [⟨freshEid g, parent, child⟩]⟩

/-! ### Basic membership lemmas -/

theorem mem_childrenOf {g : Graph} {n c : Nat} :
    c ∈ childrenOf g n ↔ ∃ e ∈ g.edges, e.parent = n ∧ e.child = c := by
  simp only [childrenOf, List.mem_map, List.mem_filter, beq_iff_eq]
  constructor
  · rintro ⟨e, ⟨he, hp⟩, hc⟩
    exact ⟨e, he, hp, hc⟩
  · rintro ⟨e, he, hp, hc⟩
    exact ⟨e, ⟨he, hp⟩, hc⟩

theorem mem_parentsOf {g : Graph} {n p : Nat} :
    p ∈ parentsOf g n ↔ ∃ e ∈ g.edges, e.parent = p ∧ e.child = n := by
  simp only [parentsOf, List.mem_map, List.mem_filter, beq_iff_eq]
  constructor
  · rintro ⟨e, ⟨he, hc⟩, hp⟩
    exact ⟨e, he, hp, hc⟩
  · rintro ⟨e, he, hp, hc⟩
    exact ⟨e, ⟨he, hc⟩, hp⟩

theorem parentsOf_children {g : Graph} {p c : Nat} :
    p ∈ parentsOf g c ↔ c ∈ childrenOf g p := by
  rw [mem_parentsOf, mem_childrenOf]

theorem mem_edgesFrom {g : Graph} {n : Nat} {e : Edge} :
    e ∈ edgesFrom g n ↔ e ∈ g.edges ∧ e.parent = n := by
  simp [edgesFrom, List.mem_filter]

theorem mem_edgesBetween {g : Graph} {p c : Nat} {e : Edge} :
    e ∈ edgesBetween g p c ↔ e ∈ g.edges ∧ e.parent = p ∧ e.child = c := by
  simp [edgesBetween, List.mem_filter]

theorem childrenOf_iff_edgesBetween {g : Graph} {p c : Nat} :
    c ∈ childrenOf g p ↔ edgesBetween g p c ≠ [] := by
  rw [mem_childrenOf]
  constructor
  · rintro ⟨e, he, hp, hc⟩ hnil
    have : e ∈ edgesBetween g p c := mem_edgesBetween.mpr ⟨he, hp, hc⟩
    rw [hnil] at this
    simp at this
  · intro h
    rcases hne : edgesBetween g p c with _ | ⟨x, xs⟩
    · exact absurd hne h
    · have hx : x ∈ edgesBetween g p c := by rw [hne]; exact List.mem_cons_self _ _
      rcases mem_edgesBetween.mp hx with ⟨he, hp, hc⟩
      exact ⟨x, he, hp, hc⟩

theorem childrenOf_ne_nil_mem_nodes {g : Graph} {n : Nat}
    (h : childrenOf g n ≠ []) : n ∈ nodesList g := by
  rcases hne : childrenOf g n with _ | ⟨c, cs⟩
  · exact absurd hne h
  · have : c ∈ childrenOf g n := by rw [hne]; exact List.mem_cons_self _ _
    rcases mem_childrenOf.mp this with ⟨e, he, hp, _⟩
    exact List.mem_append.mpr (Or.inl (List.mem_map.mpr ⟨e, he, hp⟩))

theorem parentsOf_ne_nil_mem_nodes {g : Graph} {n : Nat}
    (h : parentsOf g n ≠ []) : n ∈ nodesList g := by
  rcases hne : parentsOf g n with _ | ⟨p, ps⟩
  · exact absurd hne h
  · have : p ∈ parentsOf g n := by rw [hne]; exact List.mem_cons_self _ _
    rcases mem_parentsOf.mp this with ⟨e, he, _, hc⟩
    exact List.mem_append.mpr (Or.inr (List.mem_map.mpr ⟨e, he, hc⟩))

/-! ### Reachability -/

theorem mem_reachAt_zero {adj : Nat → List Nat} {s m : Nat} :
    m ∈ reachAt adj s 0 ↔ m = s := by
  simp [reachAt]

theorem mem_reachAt_succ {adj : Nat → List Nat} {s m : Nat} {k : Nat} :
    m ∈ reachAt adj s (k + 1) ↔ ∃ n ∈ reachAt adj s k, m ∈ adj n := by
  simp [reachAt]

/-- Step decomposition at the front of the walk. -/
theorem mem_reachAt_succ_front {adj : Nat → List Nat} {s m : Nat} {k : Nat} :
    m ∈ reachAt adj s (k + 1) ↔ ∃ c ∈ adj s, m ∈ reachAt adj c k := by
  induction k generalizing m with
  | zero =>
    rw [mem_reachAt_succ]
    constructor
    · rintro ⟨n, hn, hm⟩
      rw [mem_reachAt_zero] at hn
      exact ⟨m, hn ▸ hm, mem_reachAt_zero.mpr rfl⟩
    · rintro ⟨c, hc, hm⟩
      rw [mem_reachAt_zero] at hm
      exact ⟨s, mem_reachAt_zero.mpr rfl, hm ▸ hc⟩
  | succ k ih =>
    rw [mem_reachAt_succ]
    constructor
    · rintro ⟨n, hn, hm⟩
      rcases ih.mp hn with ⟨c, hc, hn'⟩
      exact ⟨c, hc, mem_reachAt_succ.mpr ⟨n, hn', hm⟩⟩
    · rintro ⟨c, hc, hm⟩
      rcases mem_reachAt_succ.mp hm with ⟨n, hn, hmn⟩
      exact ⟨n, ih.mpr ⟨c, hc, hn⟩, hmn⟩

theorem reachAt_compose {adj : Nat → List Nat} {s a b : Nat} {j k : Nat}
    (ha : a ∈ reachAt adj s j) (hb : b ∈ reachAt adj a k) :
    b ∈ reachAt adj s (j + k) := by
  induction k generalizing b with
  | zero =>
    rw [mem_reachAt_zero] at hb
    simpa [hb] using ha
  | succ k ih =>
    rcases mem_reachAt_succ.mp hb with ⟨n, hn, hbn⟩
    exact mem_reachAt_succ.mpr ⟨n, ih hn, hbn⟩

theorem reachAt_empty_succ {adj : Nat → List Nat} {s : Nat} {k : Nat}
    (h : reachAt adj s k = ∅) : reachAt adj s (k + 1) = ∅ := by
  rw [reachAt, h]
  rfl

theorem reachAt_empty_mono {adj : Nat → List Nat} {s : Nat} {k j : Nat}
    (h : reachAt adj s k = ∅) (hkj : k ≤ j) : reachAt adj s j = ∅ := by
  induction j with
  | zero =>
    have : k = 0 := Nat.le_zero.mp hkj
    exact this ▸ h
  | succ j ih =>
    rcases Nat.lt_or_ge k (j + 1) with hlt | hge
    · exact reachAt_empty_succ (ih (Nat.lt_succ_iff.mp hlt))
    · have : k = j + 1 := Nat.le_antisymm hkj hge
      exact this ▸ h

theorem reachAt_adj_nil {adj : Nat → List Nat} {s : Nat}
    (h : adj s = []) {k : Nat} (hk : 1 ≤ k) : reachAt adj s k = ∅ := by
  have h1 : reachAt adj s 1 = ∅ := by
    simp [reachAt, h]
  exact reachAt_empty_mono h1 hk

/-! ### The walk computes bounded reachability -/

theorem mem_walk_foldr {S : Nat → Finset Nat} {l : List Nat} {m : Nat} :
    m ∈ l.foldr (fun f acc => insert f (S f ∪ acc)) ∅ ↔ ∃ c ∈ l, m = c ∨ m ∈ S c := by
  induction l with
  | nil => simp
  | cons x xs ih =>
    simp only [List.foldr, Finset.mem_insert, Finset.mem_union, ih, List.mem_cons]
    constructor
    · rintro (h | h | ⟨c, hc, h⟩)
      · exact ⟨x, Or.inl rfl, Or.inl h⟩
      · exact ⟨x, Or.inl rfl, Or.inr h⟩
      · exact ⟨c, Or.inr hc, h⟩
    · rintro ⟨c, hc | hc, h⟩
      · rcases h with h | h
        · exact Or.inl (hc ▸ h)
        · exact Or.inr (Or.inl (hc ▸ h))
      · exact Or.inr (Or.inr ⟨c, hc, h⟩)

theorem mem_walkSet {adj : Nat → List Nat} {m : Nat} :
    ∀ {fuel n : Nat}, m ∈ walkSet adj fuel n ↔ ∃ k, 1 ≤ k ∧ k ≤ fuel ∧ m ∈ reachAt adj n k := by
  intro fuel
  induction fuel with
  | zero =>
    intro n
    simp only [walkSet, Finset.not_mem_empty, false_iff]
    rintro ⟨k, h1, h0, _⟩
    omega
  | succ fuel ih =>
    intro n
    rw [walkSet, mem_walk_foldr]
    constructor
    · rintro ⟨c, hc, h | h⟩
      · exact ⟨1, le_refl _, Nat.succ_le_succ (Nat.zero_le _),
          mem_reachAt_succ_front.mpr ⟨c, hc, mem_reachAt_zero.mpr h⟩⟩
      · rcases ih.mp h with ⟨k, hk1, hkf, hr⟩
        exact ⟨k + 1, Nat.le_succ_of_le hk1, Nat.succ_le_succ hkf,
          mem_reachAt_succ_front.mpr ⟨c, hc, hr⟩⟩
    · rintro ⟨k, hk1, hkf, hr⟩
      rcases k with _ | k
      · omega
      rcases mem_reachAt_succ_front.mp hr with ⟨c, hc, hm⟩
      rcases k with _ | k
      · exact ⟨c, hc, Or.inl (mem_reachAt_zero.mp hm)⟩
      · exact ⟨c, hc, Or.inr (ih.mpr ⟨k + 1, Nat.succ_le_succ (Nat.zero_le _),
          by omega, hm⟩)⟩

/-! ### The acyclicity bound

`dagBound g F` is the decidable statement that no node mentioned by an edge
has an outgoing walk of `F` steps.  On an acyclic graph it holds with
`F = defaultFuel g` since a path cannot repeat an edge row.  It implies both
that all walks are shorter than `F` and that the graph has no directed
cycle, in both the child and the parent direction. -/

def dagBound (g : Graph) (F : Nat) : Prop :=
  0 < F ∧ ∀ n ∈ nodesList g, reachAt (childrenOf g) n F = ∅

instance (g : Graph) (F : Nat) : Decidable (dagBound g F) := by
  unfold dagBound
  infer_instance

theorem dagBound_all {g : Graph} {F : Nat} (h : dagBound g F) (n : Nat) :
    reachAt (childrenOf g) n F = ∅ := by
  by_cases hn : n ∈ nodesList g
  · exact h.2 n hn
  · rcases hne : childrenOf g n with _ | _
    · exact reachAt_adj_nil hne h.1
    · exact absurd (childrenOf_ne_nil_mem_nodes (by rw [hne]; simp)) hn

theorem dagBound_lt {g : Graph} {F : Nat} (h : dagBound g F) {s m k : Nat}
    (hm : m ∈ reachAt (childrenOf g) s k) : k < F := by
  by_contra hge
  have : reachAt (childrenOf g) s k = ∅ :=
    reachAt_empty_mono (dagBound_all h s) (Nat.le_of_not_lt hge)
  rw [this] at hm
  exact Finset.not_mem_empty m hm

/-- A `k`-step walk up the parent relation from `s` to `m` is a `k`-step walk
down the child relation from `m` to `s`. -/
theorem reachAt_parents_flip {g : Graph} {s m k : Nat} :
    m ∈ reachAt (parentsOf g) s k ↔ s ∈ reachAt (childrenOf g) m k := by
  induction k generalizing m with
  | zero =>
    rw [mem_reachAt_zero, mem_reachAt_zero]
    exact ⟨fun h => h.symm, fun h => h.symm⟩
  | succ k ih =>
    rw [mem_reachAt_succ]
    constructor
    · rintro ⟨n, hn, hm⟩
      rw [ih] at hn
      exact mem_reachAt_succ_front.mpr ⟨n, parentsOf_children.mp hm, hn⟩
    · intro h
      rcases mem_reachAt_succ_front.mp h with ⟨c, hc, hs⟩
      exact ⟨c, ih.mpr hs, parentsOf_children.mpr hc⟩

theorem dagBound_lt_up {g : Graph} {F : Nat} (h : dagBound g F) {s m k : Nat}
    (hm : m ∈ reachAt (parentsOf g) s k) : k < F :=
  dagBound_lt h (reachAt_parents_flip.mp hm)

theorem reachAt_iterate {adj : Nat → List Nat} {n k : Nat}
    (h : n ∈ reachAt adj n k) : ∀ j, n ∈ reachAt adj n (j * k) := by
  intro j
  induction j with
  | zero =>
    rw [Nat.zero_mul]
    exact mem_reachAt_zero.mpr rfl
  | succ j ih => exact Nat.succ_mul j k ▸ reachAt_compose ih h

/-- No directed cycle (child direction). -/
theorem dagBound_no_self {g : Graph} {F : Nat} (h : dagBound g F) {n k : Nat}
    (hk : 1 ≤ k) : n ∉ reachAt (childrenOf g) n k := by
  intro hmem
  have hFk : n ∈ reachAt (childrenOf g) n (F * k) := reachAt_iterate hmem F
  have : F * k < F := dagBound_lt h hFk
  have : F ≤ F * k := Nat.le_mul_of_pos_right F hk
  omega

theorem dagBound_no_self_up {g : Graph} {F : Nat} (h : dagBound g F) {n k : Nat}
    (hk : 1 ≤ k) : n ∉ reachAt (parentsOf g) n k := fun hmem =>
  dagBound_no_self h hk (reachAt_parents_flip.mp hmem)

/-- With a `dagBound`, the descendant set is exactly proper downward
reachability. -/
theorem mem_descendantSet {g : Graph} {F : Nat} (hb : dagBound g F)
    (hF : F ≤ defaultFuel g) {n m : Nat} :
    m ∈ descendantSet g n ↔ ∃ k, 1 ≤ k ∧ m ∈ reachAt (childrenOf g) n k := by
  rw [descendantSet, mem_walkSet]
  constructor
  · rintro ⟨k, h1, _, hr⟩
    exact ⟨k, h1, hr⟩
  · rintro ⟨k, h1, hr⟩
    exact ⟨k, h1, le_trans (Nat.le_of_lt (dagBound_lt hb hr)) hF, hr⟩

theorem mem_ancestorSet {g : Graph} {F : Nat} (hb : dagBound g F)
    (hF : F ≤ defaultFuel g) {n m : Nat} :
    m ∈ ancestorSet g n ↔ ∃ k, 1 ≤ k ∧ m ∈ reachAt (parentsOf g) n k := by
  rw [ancestorSet, mem_walkSet]
  constructor
  · rintro ⟨k, h1, _, hr⟩
    exact ⟨k, h1, hr⟩
  · rintro ⟨k, h1, hr⟩
    exact ⟨k, h1, le_trans (Nat.le_of_lt (dagBound_lt_up hb hr)) hF, hr⟩

/-- Membership in the `get_ancestor_pks()` list is membership in the
ancestor set. -/
theorem mem_get_ancestor_pks {g : Graph} {n m : Nat} :
    m ∈ get_ancestor_pks g n ↔ m ∈ ancestorSet g n := by
  rw [get_ancestor_pks, Finset.mem_sort]

/-- Membership in the `get_descendant_pks()` list is membership in the
descendant set. -/
theorem mem_get_descendant_pks {g : Graph} {n m : Nat} :
    m ∈ get_descendant_pks g n ↔ m ∈ descendantSet g n := by
  rw [get_descendant_pks, Finset.mem_sort]

/-! ## Claim C1 -/

/-- C1: whenever `c` is in the ancestor set of `p`, `circular_checker(p, c)`
raises (with message 'The object is an ancestor.' when the pair is not also
a self link), and `circular_checker(n, n)` always raises
'Self links are not allowed.'; being a pure function of the graph snapshot,
the check has no effect beyond its error value. -/
theorem C1_circular_checker_raises (g : Graph) (p c : Nat) :
    (c ∈ get_ancestor_pks g p → circular_checker g p c ≠ .ok ()) ∧
    (c ∈ get_ancestor_pks g p → p ≠ c →
      circular_checker g p c = .error "The object is an ancestor.") ∧
    circular_checker g p p = .error "Self links are not allowed." := by
  refine ⟨?_, ?_, ?_⟩
  · intro hc
    rw [mem_get_ancestor_pks] at hc
    by_cases hpc : p = c <;> simp [circular_checker, hpc, hc]
  · intro hc hpc
    rw [mem_get_ancestor_pks] at hc
    simp [circular_checker, hpc, hc]
  · simp [circular_checker]

/-- Concrete instantiation of `C1_circular_checker_raises`: in the graph
with the single edge 1 → 2, node 1 is an ancestor of node 2. -/
theorem C1_circular_checker_raises_witness :
    (1 : Nat) ∈ get_ancestor_pks ⟨[⟨1, 1, 2⟩]⟩ 2 ∧
    circular_checker ⟨[⟨1, 1, 2⟩]⟩ 2 1 ≠ .ok () ∧
    circular_checker ⟨[⟨1, 1, 2⟩]⟩ 2 1 = .error "The object is an ancestor." ∧
    circular_checker ⟨[⟨1, 1, 2⟩]⟩ 5 5 = .error "Self links are not allowed." := by
  have hm : (1 : Nat) ∈ get_ancestor_pks ⟨[⟨1, 1, 2⟩]⟩ 2 := by
    rw [mem_get_ancestor_pks]; decide
  exact ⟨hm,
    (C1_circular_checker_raises ⟨[⟨1, 1, 2⟩]⟩ 2 1).1 hm,
    (C1_circular_checker_raises ⟨[⟨1, 1, 2⟩]⟩ 2 1).2.1 hm (by decide),
    (C1_circular_checker_raises ⟨[⟨1, 1, 2⟩]⟩ 5 5).2.2⟩

/-! ## Claim C2

The claim states the check fails when `parent` is in `child`'s ancestor set.
The source tests the opposite direction: `child.pk in
parent.get_ancestor_pks()`.  The two are not equivalent: with the single
edge 1 → 2, parent 1 is in the ancestor set of child 2, yet
`circular_checker(1, 2)` succeeds (adding a parallel edge 1 → 2 creates no
cycle).  The check that is actually performed — and that edge creation
enforces — is that the child must not already be an ancestor of the
parent. -/

/-- C2 counterexample: nodes 1 ≠ 2, parent 1 is in child 2's ancestor set,
and yet `circular_checker(1, 2)` returns normally. -/
theorem C2_counterexample :
    (1 : Nat) ≠ 2 ∧
    (1 : Nat) ∈ ancestorSet ⟨[⟨1, 1, 2⟩]⟩ 2 ∧
    circular_checker ⟨[⟨1, 1, 2⟩]⟩ 1 2 = .ok () := by
  refine ⟨by decide, by decide, ?_⟩
  have h2 : (2 : Nat) ∉ ancestorSet ⟨[⟨1, 1, 2⟩]⟩ 1 := by decide
  simp [circular_checker, h2]

/-- C2 amended: an edge (p, c) is only ever created when `c` is not already
in `p`'s ancestor set (and p ≠ c): `add_child` persists the new edge row
only after `circular_checker` passes. -/
theorem C2_add_child_guard (g : Graph) (p c : Nat) (g' : Graph)
    (h : add_child g p c = .ok g') :
    p ≠ c ∧ c ∉ ancestorSet g p ∧ g'.edges = g.edges ++ [⟨freshEid g, p, c⟩] := by
  rw [add_child] at h
  rcases hcc : circular_checker g p c with e | u
  · rw [hcc] at h
    cases h
  · rw [hcc] at h
    rw [circular_checker] at hcc
    by_cases hpc : p = c
    · rw [if_pos hpc] at hcc
      cases hcc
    · rw [if_neg hpc] at hcc
      by_cases hanc : c ∈ ancestorSet g p
      · rw [if_pos hanc] at hcc
        cases hcc
      · cases h
        exact ⟨hpc, hanc, rfl⟩

/-- Concrete instantiation of `C2_add_child_guard`: adding 3 as a child of 2
in the graph with edge 1 → 2 succeeds, so 3 was not an ancestor of 2. -/
theorem C2_add_child_guard_witness :
    add_child ⟨[⟨1, 1, 2⟩]⟩ 2 3 = .ok ⟨[⟨1, 1, 2⟩, ⟨2, 2, 3⟩]⟩ ∧
    ((2 : Nat) ≠ 3 ∧ (3 : Nat) ∉ ancestorSet ⟨[⟨1, 1, 2⟩]⟩ 2 ∧
      (⟨[⟨1, 1, 2⟩, ⟨2, 2, 3⟩]⟩ : Graph).edges
        = (⟨[⟨1, 1, 2⟩]⟩ : Graph).edges ++ [⟨freshEid ⟨[⟨1, 1, 2⟩]⟩, 2, 3⟩]) := by
  have hok : add_child ⟨[⟨1, 1, 2⟩]⟩ 2 3 = .ok ⟨[⟨1, 1, 2⟩, ⟨2, 2, 3⟩]⟩ := by
    have h3 : (3 : Nat) ∉ ancestorSet ⟨[⟨1, 1, 2⟩]⟩ 2 := by decide
    simp [add_child, circular_checker, h3, freshEid]
  exact ⟨hok, C2_add_child_guard ⟨[⟨1, 1, 2⟩]⟩ 2 3 ⟨[⟨1, 1, 2⟩, ⟨2, 2, 3⟩]⟩ hok⟩

/-! ## Claim C3 -/

/-- C3: the clan of `n` is the union of its ancestor set, `{n}` and its
descendant set; `n` is always in its clan, never in its own ancestor or
descendant set, and the clan pk list contains `n` exactly once. -/
theorem C3_clan_spec (g : Graph) (F : Nat) (hb : dagBound g F)
    (hF : F ≤ defaultFuel g) (n : Nat) :
    clanSet g n = ancestorSet g n ∪ {n} ∪ descendantSet g n ∧
    n ∈ clanSet g n ∧
    n ∉ ancestorSet g n ∧
    n ∉ descendantSet g n ∧
    (get_clan_pks g n).count n = 1 := by
  have hnd : n ∉ descendantSet g n := by
    rw [mem_descendantSet hb hF]
    rintro ⟨k, hk1, hr⟩
    exact dagBound_no_self hb hk1 hr
  have hna : n ∉ ancestorSet g n := by
    rw [mem_ancestorSet hb hF]
    rintro ⟨k, hk1, hr⟩
    exact dagBound_no_self_up hb hk1 hr
  refine ⟨rfl, by simp [clanSet], hna, hnd, ?_⟩
  have h1 : (get_ancestor_pks g n).count n = 0 :=
    List.count_eq_zero.mpr fun hm => hna (mem_get_ancestor_pks.mp hm)
  have h2 : (get_descendant_pks g n).count n = 0 :=
    List.count_eq_zero.mpr fun hm => hnd (mem_get_descendant_pks.mp hm)
  rw [get_clan_pks, List.count_append, List.count_append, h1, h2]
  simp

/-- Concrete instantiation of `C3_clan_spec` on the diamond
1 → 2 → 3, 1 → 3 at node 2. -/
theorem C3_clan_spec_witness :
    dagBound ⟨[⟨1, 1, 2⟩, ⟨2, 2, 3⟩, ⟨3, 1, 3⟩]⟩ 4 ∧
    4 ≤ defaultFuel ⟨[⟨1, 1, 2⟩, ⟨2, 2, 3⟩, ⟨3, 1, 3⟩]⟩ ∧
    (clanSet ⟨[⟨1, 1, 2⟩, ⟨2, 2, 3⟩, ⟨3, 1, 3⟩]⟩ 2
        = ancestorSet ⟨[⟨1, 1, 2⟩, ⟨2, 2, 3⟩, ⟨3, 1, 3⟩]⟩ 2 ∪ {2}
          ∪ descendantSet ⟨[⟨1, 1, 2⟩, ⟨2, 2, 3⟩, ⟨3, 1, 3⟩]⟩ 2 ∧
      2 ∈ clanSet ⟨[⟨1, 1, 2⟩, ⟨2, 2, 3⟩, ⟨3, 1, 3⟩]⟩ 2 ∧
      2 ∉ ancestorSet ⟨[⟨1, 1, 2⟩, ⟨2, 2, 3⟩, ⟨3, 1, 3⟩]⟩ 2 ∧
      2 ∉ descendantSet ⟨[⟨1, 1, 2⟩, ⟨2, 2, 3⟩, ⟨3, 1, 3⟩]⟩ 2 ∧
      (get_clan_pks ⟨[⟨1, 1, 2⟩, ⟨2, 2, 3⟩, ⟨3, 1, 3⟩]⟩ 2).count 2 = 1) :=
  ⟨by decide, by decide,
    C3_clan_spec ⟨[⟨1, 1, 2⟩, ⟨2, 2, 3⟩, ⟨3, 1, 3⟩]⟩ 4 (by decide) (by decide) 2⟩

/-! ## Path finding (`ProtoNode._get_paths`, `get_paths`, `BaseNode.distance`)

A step of a returned path is either a node (the default) or an edge row
(`use_edges=True`).  A raised `NodeNotReachableException` is the
`Except.error ()` value. -/

inductive Step where
  | node (pk : Nat)
  | edge (e : Edge)
deriving DecidableEq, Repr

/-- The value of `sys.maxsize` on CPython (64-bit), the initial
`path_length` of the search loop in `_get_paths`. -/
def sysMaxsize : Nat := 2 ^ 63 - 1

/-- The body of the `for child_edge in childItems` loop of `_get_paths`:
the accumulator carries the mutable `(paths, path_length)` pair, `rec` is
the recursive call on `child_edge.child`.  A `NodeNotReachableException`
from the recursive call is absorbed (`except ...: pass`).  Successful
recursive results are non-empty (proved below), so python's
`desc_paths[0]` is modelled with `headD []`. -/
def pathsFoldStep (ue down : Bool)
    (rec : Nat → Except Unit (List (List Step)))
    (acc : List (List Step) × Nat) (childEdge : Edge) : List (List Step) × Nat :=
  let element := if ue then Step.edge childEdge
    else if down then Step.node childEdge.child else Step.node childEdge.parent
  match rec childEdge.child with
  | .error _ => acc
  | .ok descPaths =>
    let descLen := (descPaths.headD []).length + 1
    if descLen < acc.2 then
      (descPaths.map fun sp => element :: sp, descLen)
    else if descLen = acc.2 then
      (acc.1 ++ descPaths.map fun sp => element :: sp, acc.2)
    else acc

/-- `ProtoNode._get_paths(self, target, use_edges, downwards)`
(standard.py).  The python recursion terminates because the graph is
acyclic; the embedding's fuel is irrelevant whenever it exceeds every walk
length (`getPathsAux_spec` below), and `defaultFuel` suffices under a
`dagBound`.  Branches, in source order: same node → one empty path; target
a direct child → per-edge single-step paths (edges) or one single-step path
(nodes); target a strict descendant → the accumulating loop; otherwise
raise. -/
def getPathsAux (g : Graph) : Nat → Nat → Nat → Bool → Bool → Except Unit (List (List Step))
  | 0, _, _, _, _ => .error ()
  | fuel + 1, s, t, ue, down =>
    if s = t then .ok [[]]
    else if t ∈ childrenOf g s then
      if ue then .ok ((edgesBetween g s t).map fun e => [Step.edge e])
      else .ok [[if down then Step.node t else Step.node s]]
    else if t ∈ descendantSet g s then
      .ok ((edgesFrom g s).foldl
        (pathsFoldStep ue down fun c => getPathsAux g fuel c t ue down)
        ([], sysMaxsize)).1
    else .error ()

/-- `ProtoNode.get_paths(self, target, use_edges, downwards)` (standard.py):
`downwards=True` searches down and re-raises; `downwards=False` runs
`target._get_paths(self, ..., downwards=False)`; the default bidirectional
mode tries down first and falls back to the reversed search. -/
def get_paths (g : Graph) (s t : Nat) (ue : Bool) (downwards : Option Bool) :
    Except Unit (List (List Step)) :=
  match downwards with
  | some false => getPathsAux g (defaultFuel g) t s ue false
  | some true => getPathsAux g (defaultFuel g) s t ue true
  | none =>
    match getPathsAux g (defaultFuel g) s t ue true with
    | .ok r => .ok r
    | .error _ => getPathsAux g (defaultFuel g) t s ue false

/-- `BaseNode.distance(self, target, directed=True)` (base.py): the length
of the first shortest downward path, else `reversing_sign` times the length
of the first path of the reversed search; the sign is −1 only in directed
mode. -/
def distance (g : Graph) (s t : Nat) (directed : Bool) : Except Unit Int :=
  let reversing_sign : Int := if directed then -1 else 1
  match get_paths g s t false (some true) with
  | .ok paths => .ok ((paths.headD []).length : Int)
  | .error _ =>
    match get_paths g s t false (some false) with
    | .ok paths => .ok (reversing_sign * ((paths.headD []).length : Int))
    | .error e => .error e

theorem getPathsAux_self (g : Graph) (fuel n : Nat) (ue down : Bool) :
    getPathsAux g (fuel + 1) n n ue down = .ok [[]] := by
  simp [getPathsAux]

/-! ## Claim C4 -/

/-- C4: for every node `n`, `get_paths(n, n)` returns exactly one path, the
empty one, for every `use_edges` and `downwards` mode: the same-node query
never returns an edge. -/
theorem C4_get_paths_same_node (g : Graph) (n : Nat) (ue : Bool)
    (downwards : Option Bool) :
    get_paths g n n ue downwards = .ok [[]] := by
  have h : ∀ d : Bool, getPathsAux g (defaultFuel g) n n ue d = .ok [[]] := by
    intro d
    rw [defaultFuel]
    exact getPathsAux_self g g.edges.length n ue d
  rcases downwards with _ | b
  · rw [get_paths, h true]
  · rcases b with _ | _
    · rw [get_paths]
      exact h false
    · rw [get_paths]
      exact h true

/-! ## Claim C5

As stated the claim is false: with `use_edges=False` (the default) the
single-hop branch of `_get_paths` returns the single path `[[target]]`
however many parallel edges exist.  Only with `use_edges=True` does it
return one path per parallel edge row. -/

/-- C5 counterexample: two parallel edges 1 → 2 (k = 2), yet the default
`get_paths(1, 2)` returns exactly one path, not two. -/
theorem C5_counterexample :
    (edgesBetween ⟨[⟨1, 1, 2⟩, ⟨2, 1, 2⟩]⟩ 1 2).length = 2 ∧
    get_paths ⟨[⟨1, 1, 2⟩, ⟨2, 1, 2⟩]⟩ 1 2 false none = .ok [[Step.node 2]] ∧
    [[Step.node 2]].length ≠ 2 := by
  refine ⟨by decide, ?_, by decide⟩
  have h2 : (2 : Nat) ∈ childrenOf ⟨[⟨1, 1, 2⟩, ⟨2, 1, 2⟩]⟩ 1 := by decide
  simp [get_paths, defaultFuel, getPathsAux, h2]

/-- C5 amended: if `t` is a direct child of `s` (with any number k ≥ 1 of
parallel edge rows), the downward and the default bidirectional query with
`use_edges=True` return exactly one path per parallel edge row, each of
length 1 and each referencing that distinct edge row, while with
`use_edges=False` they return exactly one path `[[t]]` regardless of k. -/
theorem C5_single_hop (g : Graph) (s t : Nat) (hst : s ≠ t)
    (hchild : t ∈ childrenOf g s) :
    get_paths g s t true (some true) = .ok ((edgesBetween g s t).map fun e => [Step.edge e]) ∧
    get_paths g s t true none = .ok ((edgesBetween g s t).map fun e => [Step.edge e]) ∧
    get_paths g s t false (some true) = .ok [[Step.node t]] ∧
    get_paths g s t false none = .ok [[Step.node t]] ∧
    ((edgesBetween g s t).map fun e => [Step.edge e]).length = (edgesBetween g s t).length ∧
    (∀ p ∈ (edgesBetween g s t).map fun e => [Step.edge e], p.length = 1) := by
  have hdown : ∀ ue : Bool, getPathsAux g (defaultFuel g) s t ue true =
      if ue then .ok ((edgesBetween g s t).map fun e => [Step.edge e])
      else .ok [[Step.node t]] := by
    intro ue
    rw [defaultFuel, getPathsAux, if_neg hst, if_pos hchild]
    cases ue <;> simp
  refine ⟨?_, ?_, ?_, ?_, by simp, by simp⟩
  · rw [get_paths, hdown true]
    simp
  · rw [get_paths, hdown true]
    simp
  · rw [get_paths, hdown false]
    simp
  · rw [get_paths, hdown false]
    simp

/-- Concrete instantiation of `C5_single_hop` with two parallel edges
1 → 2. -/
theorem C5_single_hop_witness :
    (1 : Nat) ≠ 2 ∧ (2 : Nat) ∈ childrenOf ⟨[⟨1, 1, 2⟩, ⟨2, 1, 2⟩]⟩ 1 ∧
    (get_paths ⟨[⟨1, 1, 2⟩, ⟨2, 1, 2⟩]⟩ 1 2 true (some true)
        = .ok [[Step.edge ⟨1, 1, 2⟩], [Step.edge ⟨2, 1, 2⟩]] ∧
      get_paths ⟨[⟨1, 1, 2⟩, ⟨2, 1, 2⟩]⟩ 1 2 false (some true) = .ok [[Step.node 2]]) := by
  have h := C5_single_hop ⟨[⟨1, 1, 2⟩, ⟨2, 1, 2⟩]⟩ 1 2 (by decide) (by decide)
  refine ⟨by decide, by decide, ?_, h.2.2.1⟩
  have he : edgesBetween ⟨[⟨1, 1, 2⟩, ⟨2, 1, 2⟩]⟩ 1 2 = [⟨1, 1, 2⟩, ⟨2, 1, 2⟩] := by decide
  rw [h.1, he]
  rfl

/-! ### Correctness of the path search -/

/-- `t` is properly reachable downward from `s`. -/
def Rch (g : Graph) (s t : Nat) : Prop :=
  ∃ k, 1 ≤ k ∧ t ∈ reachAt (childrenOf g) s k

/-- `k` is the length of a shortest proper downward path from `s` to `t`. -/
def isShortest (g : Graph) (s t k : Nat) : Prop :=
  1 ≤ k ∧ t ∈ reachAt (childrenOf g) s k ∧
    ∀ j, 1 ≤ j → t ∈ reachAt (childrenOf g) s j → k ≤ j

theorem isShortest_unique {g : Graph} {s t k k' : Nat}
    (h : isShortest g s t k) (h' : isShortest g s t k') : k = k' :=
  Nat.le_antisymm (h.2.2 k' h'.1 h'.2.1) (h'.2.2 k h.1 h.2.1)

theorem Rch.shortest {g : Graph} {s t : Nat} (h : Rch g s t) :
    ∃ k, isShortest g s t k := by
  have hex : ∃ k, 1 ≤ k ∧ t ∈ reachAt (childrenOf g) s k := h
  refine ⟨Nat.find hex, (Nat.find_spec hex).1, (Nat.find_spec hex).2, ?_⟩
  intro j hj hr
  exact Nat.find_min' hex ⟨hj, hr⟩

theorem headD_mem {α : Type} {L : List (List α)} (h : L ≠ []) : L.headD [] ∈ L := by
  rcases L with _ | ⟨x, xs⟩
  · exact absurd rfl h
  · simp

theorem mem_edgesFrom_child {g : Graph} {s : Nat} {e : Edge}
    (he : e ∈ edgesFrom g s) : e.child ∈ childrenOf g s := by
  rcases mem_edgesFrom.mp he with ⟨hg, hp⟩
  exact mem_childrenOf.mpr ⟨e, hg, hp, rfl⟩

theorem childrenOf_exists_edge {g : Graph} {s c : Nat}
    (hc : c ∈ childrenOf g s) : ∃ e ∈ edgesFrom g s, e.child = c := by
  rcases mem_childrenOf.mp hc with ⟨e, hg, hp, hcc⟩
  exact ⟨e, mem_edgesFrom.mpr ⟨hg, hp⟩, hcc⟩

/-- Invariant of the `for child_edge in childItems` loop: provided each
recursive call behaves as specified, the loop's `(paths, path_length)` pair
keeps `path_length` at or below `sys.maxsize`, its paths non-empty and of
uniform length `path_length` once any branch succeeded, never increases
`path_length`, ends at most one more than each child's shortest length, and
any improvement over the initial value is realised by some processed
edge. -/
theorem pathsFold_spec (g : Graph) (t : Nat) (ue down : Bool)
    (rec : Nat → Except Unit (List (List Step))) (B : Nat) (hBM : B < sysMaxsize) :
    ∀ (l : List Edge),
      (∀ e ∈ l,
        (rec e.child = .error () ↔ ¬ Rch g e.child t) ∧
        (∀ L, rec e.child = .ok L →
          ∃ k, isShortest g e.child t k ∧ L ≠ [] ∧ (∀ p ∈ L, p.length = k) ∧ k < B)) →
      ∀ (acc : List (List Step) × Nat),
        acc.2 ≤ sysMaxsize →
        (acc.2 < sysMaxsize → acc.1 ≠ [] ∧ ∀ p ∈ acc.1, p.length = acc.2) →
        (l.foldl (pathsFoldStep ue down rec) acc).2 ≤ sysMaxsize ∧
        ((l.foldl (pathsFoldStep ue down rec) acc).2 < sysMaxsize →
          (l.foldl (pathsFoldStep ue down rec) acc).1 ≠ [] ∧
          ∀ p ∈ (l.foldl (pathsFoldStep ue down rec) acc).1,
            p.length = (l.foldl (pathsFoldStep ue down rec) acc).2) ∧
        (l.foldl (pathsFoldStep ue down rec) acc).2 ≤ acc.2 ∧
        (∀ e ∈ l, ∀ k, isShortest g e.child t k →
          (l.foldl (pathsFoldStep ue down rec) acc).2 ≤ k + 1) ∧
        ((l.foldl (pathsFoldStep ue down rec) acc).2 < acc.2 →
          ∃ e ∈ l, ∃ k, isShortest g e.child t k ∧
            (l.foldl (pathsFoldStep ue down rec) acc).2 = k + 1) := by
  intro l
  induction l with
  | nil =>
    intro _ acc h1 h2
    simp only [List.foldl_nil]
    exact ⟨h1, h2, le_refl _, by simp, fun h => (lt_irrefl _ h).elim⟩
  | cons e rest ih =>
    intro hl acc h1 h2
    have hle := hl e (List.mem_cons_self _ _)
    have hlrest := fun e' he' => hl e' (List.mem_cons_of_mem _ he')
    rw [List.foldl_cons]
    cases hre : rec e.child with
    | error u =>
      cases u
      have hacc' : pathsFoldStep ue down rec acc e = acc := by
        simp [pathsFoldStep, hre]
      rw [hacc']
      obtain ⟨c1, c2, c3, c4, c5⟩ := ih hlrest acc h1 h2
      refine ⟨c1, c2, c3, ?_, ?_⟩
      · intro e' he' k hk
        rcases List.mem_cons.mp he' with rfl | h
        · exact absurd ⟨k, hk.1, hk.2.1⟩ (hle.1.mp hre)
        · exact c4 e' h k hk
      · intro hlt
        obtain ⟨e', he', hk⟩ := c5 hlt
        exact ⟨e', List.mem_cons_of_mem _ he', hk⟩
    | ok Le =>
      obtain ⟨ke, hks, hLne, hLlen, hkB⟩ := hle.2 Le hre
      have hhead : (Le.head?.getD []).length = ke := by
        rcases Le with _ | ⟨p, ps⟩
        · exact absurd rfl hLne
        · simpa using hLlen p (List.mem_cons_self _ _)
      by_cases hcmp : ke + 1 < acc.2
      · have hacc' : pathsFoldStep ue down rec acc e =
            (Le.map fun sp =>
              (if ue then Step.edge e
               else if down then Step.node e.child else Step.node e.parent) :: sp,
             ke + 1) := by
          simp [pathsFoldStep, hre, hhead, hcmp]
        rw [hacc']
        have hpre1 : ke + 1 ≤ sysMaxsize := by omega
        have hpre2 : ke + 1 < sysMaxsize →
            (Le.map fun sp =>
              (if ue then Step.edge e
               else if down then Step.node e.child else Step.node e.parent) :: sp) ≠ [] ∧
            ∀ p ∈ Le.map fun sp =>
              (if ue then Step.edge e
               else if down then Step.node e.child else Step.node e.parent) :: sp,
              p.length = ke + 1 := by
          intro _
          constructor
          · simpa using hLne
          · intro p hp
            obtain ⟨sp, hsp, rfl⟩ := List.mem_map.mp hp
            simp [hLlen sp hsp]
        obtain ⟨c1, c2, c3, c4, c5⟩ := ih hlrest
          (Le.map fun sp =>
            (if ue then Step.edge e
             else if down then Step.node e.child else Step.node e.parent) :: sp,
           ke + 1) hpre1 hpre2
        refine ⟨c1, c2, by omega, ?_, ?_⟩
        · intro e' he' k hk
          rcases List.mem_cons.mp he' with rfl | h
          · have : k = ke := isShortest_unique hk hks
            omega
          · exact c4 e' h k hk
        · intro _
          rcases Nat.lt_or_ge
              ((rest.foldl (pathsFoldStep ue down rec) _).2) (ke + 1) with h | h
          · obtain ⟨e', he', hk⟩ := c5 h
            exact ⟨e', List.mem_cons_of_mem _ he', hk⟩
          · exact ⟨e, List.mem_cons_self _ _, ke, hks, by omega⟩
      · by_cases heq : ke + 1 = acc.2
        · have hacc' : pathsFoldStep ue down rec acc e =
              (acc.1 ++ Le.map fun sp =>
                (if ue then Step.edge e
                 else if down then Step.node e.child else Step.node e.parent) :: sp,
               acc.2) := by
            simp [pathsFoldStep, hre, hhead, hcmp, heq]
          rw [hacc']
          have hpre2 : acc.2 < sysMaxsize →
              (acc.1 ++ Le.map fun sp =>
                (if ue then Step.edge e
                 else if down then Step.node e.child else Step.node e.parent) :: sp) ≠ [] ∧
              ∀ p ∈ acc.1 ++ Le.map fun sp =>
                (if ue then Step.edge e
                 else if down then Step.node e.child else Step.node e.parent) :: sp,
                p.length = acc.2 := by
            intro hm
            obtain ⟨hold, holdlen⟩ := h2 hm
            constructor
            · simp [hold]
            · intro p hp
              rcases List.mem_append.mp hp with h | h
              · exact holdlen p h
              · obtain ⟨sp, hsp, rfl⟩ := List.mem_map.mp h
                simp [hLlen sp hsp]
                omega
          obtain ⟨c1, c2, c3, c4, c5⟩ := ih hlrest
            (acc.1 ++ Le.map fun sp =>
              (if ue then Step.edge e
               else if down then Step.node e.child else Step.node e.parent) :: sp,
             acc.2) h1 hpre2
          refine ⟨c1, c2, c3, ?_, ?_⟩
          · intro e' he' k hk
            rcases List.mem_cons.mp he' with rfl | h
            · have : k = ke := isShortest_unique hk hks
              omega
            · exact c4 e' h k hk
          · intro hlt
            obtain ⟨e', he', hk⟩ := c5 hlt
            exact ⟨e', List.mem_cons_of_mem _ he', hk⟩
        · have hacc' : pathsFoldStep ue down rec acc e = acc := by
            simp [pathsFoldStep, hre, hhead, hcmp, heq]
          rw [hacc']
          obtain ⟨c1, c2, c3, c4, c5⟩ := ih hlrest acc h1 h2
          refine ⟨c1, c2, c3, ?_, ?_⟩
          · intro e' he' k hk
            rcases List.mem_cons.mp he' with rfl | h
            · have : k = ke := isShortest_unique hk hks
              omega
            · exact c4 e' h k hk
          · intro hlt
            obtain ⟨e', he', hk⟩ := c5 hlt
            exact ⟨e', List.mem_cons_of_mem _ he', hk⟩

/-- Full behaviour of `_get_paths` for distinct endpoints, given enough
fuel (any amount strictly larger than every walk length from the source):
it raises exactly when the target is not properly reachable downward, and
any successful result is a non-empty list of paths all of the length of a
shortest path. -/
theorem getPathsAux_spec (g : Graph) (F : Nat) (hb : dagBound g F)
    (hF : F ≤ defaultFuel g) :
    ∀ fuel, fuel ≤ sysMaxsize →
    ∀ s t : Nat, ∀ ue down : Bool,
      (∀ m k, m ∈ reachAt (childrenOf g) s k → k < fuel) →
      s ≠ t →
      (getPathsAux g fuel s t ue down = .error () ↔ ¬ Rch g s t) ∧
      (∀ L, getPathsAux g fuel s t ue down = .ok L →
        ∃ k, isShortest g s t k ∧ L ≠ [] ∧ ∀ p ∈ L, p.length = k) := by
  intro fuel
  induction fuel with
  | zero =>
    intro _ s t ue down hs _
    exact absurd (hs s 0 (mem_reachAt_zero.mpr rfl)) (by omega)
  | succ fuel ih =>
    intro hM s t ue down hs hst
    have hs_child : ∀ c ∈ childrenOf g s, ∀ m k,
        m ∈ reachAt (childrenOf g) c k → k < fuel := by
      intro c hc m k hr
      have := hs m (k + 1) (mem_reachAt_succ_front.mpr ⟨c, hc, hr⟩)
      omega
    simp only [getPathsAux, if_neg hst]
    by_cases hchild : t ∈ childrenOf g s
    · rw [if_pos hchild]
      have hrch : Rch g s t :=
        ⟨1, le_refl _, mem_reachAt_succ_front.mpr ⟨t, hchild, mem_reachAt_zero.mpr rfl⟩⟩
      have hshort1 : isShortest g s t 1 :=
        ⟨le_refl _, mem_reachAt_succ_front.mpr ⟨t, hchild, mem_reachAt_zero.mpr rfl⟩,
          fun j hj _ => hj⟩
      constructor
      · refine iff_of_false ?_ (not_not_intro hrch)
        cases ue <;> simp
      · intro L hL
        cases ue
        · simp only [Bool.false_eq_true, if_false] at hL
          cases hL
          exact ⟨1, hshort1, by simp, by simp⟩
        · simp only [if_true] at hL
          cases hL
          refine ⟨1, hshort1, ?_, ?_⟩
          · have := childrenOf_iff_edgesBetween.mp hchild
            simpa using this
          · intro p hp
            obtain ⟨e, _, rfl⟩ := List.mem_map.mp hp
            simp
    · rw [if_neg hchild]
      by_cases hdesc : t ∈ descendantSet g s
      · rw [if_pos hdesc]
        have hrch : Rch g s t := (mem_descendantSet hb hF).mp hdesc
        constructor
        · exact iff_of_false (by simp) (not_not_intro hrch)
        · intro L hL
          have hBM : fuel < sysMaxsize := by omega
          have hl : ∀ e ∈ edgesFrom g s,
              ((fun c => getPathsAux g fuel c t ue down) e.child = .error ()
                ↔ ¬ Rch g e.child t) ∧
              (∀ L', (fun c => getPathsAux g fuel c t ue down) e.child = .ok L' →
                ∃ k, isShortest g e.child t k ∧ L' ≠ [] ∧
                  (∀ p ∈ L', p.length = k) ∧ k < fuel) := by
            intro e he
            have hc : e.child ∈ childrenOf g s := mem_edgesFrom_child he
            have hct : e.child ≠ t := fun h => hchild (h ▸ hc)
            have hmain := ih (by omega) e.child t ue down (hs_child _ hc) hct
            refine ⟨hmain.1, ?_⟩
            intro L' hL'
            obtain ⟨k, hk, hne, hlen⟩ := hmain.2 L' hL'
            exact ⟨k, hk, hne, hlen, hs_child _ hc t k hk.2.1⟩
          obtain ⟨c1, c2, c3, c4, c5⟩ :=
            pathsFold_spec g t ue down (fun c => getPathsAux g fuel c t ue down)
              fuel hBM (edgesFrom g s) hl ([], sysMaxsize) (le_refl _)
              (fun h => (lt_irrefl _ h).elim)
          obtain ⟨j, hj1, hjr⟩ := hrch
          rcases j with _ | j'
          · omega
          obtain ⟨c, hc, hcr⟩ := mem_reachAt_succ_front.mp hjr
          have hj'pos : 1 ≤ j' := by
            rcases Nat.eq_zero_or_pos j' with h0 | h
            · subst h0
              exact absurd (mem_reachAt_zero.mp hcr ▸ hc) hchild
            · exact h
          obtain ⟨kc, hkc⟩ := Rch.shortest ⟨j', hj'pos, hcr⟩
          obtain ⟨e, he, hec⟩ := childrenOf_exists_edge hc
          have hlow := c4 e he kc (by rw [hec]; exact hkc)
          have hkcB : kc < fuel := hs_child c hc t kc hkc.2.1
          have hres_lt :
              ((edgesFrom g s).foldl
                (pathsFoldStep ue down fun c => getPathsAux g fuel c t ue down)
                ([], sysMaxsize)).2 < sysMaxsize := by omega
          obtain ⟨hne, hlen⟩ := c2 hres_lt
          obtain ⟨estar, hestar, kstar, hkstar, hres_eq⟩ := c5 hres_lt
          cases hL
          refine ⟨_, ⟨by omega, ?_, ?_⟩, hne, hlen⟩
          · rw [hres_eq]
            exact mem_reachAt_succ_front.mpr
              ⟨estar.child, mem_edgesFrom_child hestar, hkstar.2.1⟩
          · intro j hj hjr'
            rcases j with _ | j''
            · omega
            obtain ⟨c', hc', hcr'⟩ := mem_reachAt_succ_front.mp hjr'
            have hj''pos : 1 ≤ j'' := by
              rcases Nat.eq_zero_or_pos j'' with h0 | h
              · subst h0
                exact absurd (mem_reachAt_zero.mp hcr' ▸ hc') hchild
              · exact h
            obtain ⟨kc', hkc'⟩ := Rch.shortest ⟨j'', hj''pos, hcr'⟩
            obtain ⟨e', he', hec'⟩ := childrenOf_exists_edge hc'
            have := c4 e' he' kc' (by rw [hec']; exact hkc')
            have : kc' ≤ j'' := hkc'.2.2 j'' hj''pos hcr'
            omega
      · rw [if_neg hdesc]
        constructor
        · refine iff_of_true rfl ?_
          rintro ⟨k, hk1, hkr⟩
          exact hdesc ((mem_descendantSet hb hF).mpr ⟨k, hk1, hkr⟩)
        · intro L hL
          cases hL

/-! ## Claim C6 -/

/-- C6: signed `distance(a, b)` is the positive length of the shortest
descendant-direction path when `b` is reachable downward from `a`, otherwise
the negated length of the shortest ancestor-direction path when reachable
upward, and it raises (`NodeNotReachableException`, the error value) when
neither direction has a path; consequently `distance(a,b) = -distance(b,a)`
whenever both are defined, and with `directed=False` the same magnitude is
returned regardless of query direction. -/
theorem C6_distance_spec (g : Graph) (F : Nat) (hb : dagBound g F)
    (hF : F ≤ defaultFuel g) (hM : defaultFuel g < sysMaxsize) (a b : Nat) :
    (a = b → ∀ d : Bool, distance g a b d = .ok 0) ∧
    (a ≠ b → b ∈ descendantSet g a →
      ∃ k : Nat, isShortest g a b k ∧ 0 < k ∧
        distance g a b true = .ok (k : Int) ∧
        distance g b a true = .ok (-(k : Int)) ∧
        distance g a b false = .ok (k : Int) ∧
        distance g b a false = .ok (k : Int)) ∧
    (a ≠ b → b ∉ descendantSet g a → a ∉ descendantSet g b →
      ∀ d : Bool, distance g a b d = .error ()) := by
  have hsTop : ∀ s : Nat, ∀ m k, m ∈ reachAt (childrenOf g) s k → k < defaultFuel g :=
    fun s m k hr => lt_of_lt_of_le (dagBound_lt hb hr) hF
  have hMle : defaultFuel g ≤ sysMaxsize := le_of_lt hM
  refine ⟨?_, ?_, ?_⟩
  · intro hab d
    subst hab
    have h1 : getPathsAux g (defaultFuel g) a a false true = .ok [[]] := by
      rw [defaultFuel]
      exact getPathsAux_self g g.edges.length a false true
    simp [distance, get_paths, h1]
  · intro hab hdesc
    have hrch : Rch g a b := (mem_descendantSet hb hF).mp hdesc
    have spec_down := getPathsAux_spec g F hb hF (defaultFuel g) hMle a b false true
      (hsTop a) hab
    cases hres : getPathsAux g (defaultFuel g) a b false true with
    | error u =>
      cases u
      exact absurd (spec_down.1.mp hres) (not_not_intro hrch)
    | ok L =>
      obtain ⟨k, hk, hne, hlen⟩ := spec_down.2 L hres
      have hheadL : (L.head?.getD []).length = k := by
        rcases L with _ | ⟨p, ps⟩
        · exact absurd rfl hne
        · simpa using hlen p (List.mem_cons_self _ _)
      have spec_up := getPathsAux_spec g F hb hF (defaultFuel g) hMle a b false false
        (hsTop a) hab
      cases hres' : getPathsAux g (defaultFuel g) a b false false with
      | error u =>
        cases u
        exact absurd (spec_up.1.mp hres') (not_not_intro hrch)
      | ok L' =>
        obtain ⟨k', hk', hne', hlen'⟩ := spec_up.2 L' hres'
        have hkk : k' = k := isShortest_unique hk' hk
        have hheadL' : (L'.head?.getD []).length = k := by
          rcases L' with _ | ⟨p, ps⟩
          · exact absurd rfl hne'
          · simpa [← hkk] using hlen' p (List.mem_cons_self _ _)
        have hnrch : ¬ Rch g b a := by
          rintro ⟨j, hj1, hjr⟩
          obtain ⟨i, hi1, hir⟩ := hrch
          exact dagBound_no_self hb (by omega : 1 ≤ i + j) (reachAt_compose hir hjr)
        have spec_ba := getPathsAux_spec g F hb hF (defaultFuel g) hMle b a false true
          (hsTop b) (Ne.symm hab)
        have hba_err : getPathsAux g (defaultFuel g) b a false true = .error () :=
          spec_ba.1.mpr hnrch
        refine ⟨k, hk, hk.1, ?_, ?_, ?_, ?_⟩
        · simp [distance, get_paths, hres, hheadL]
        · simp [distance, get_paths, hba_err, hres', hheadL']
        · simp [distance, get_paths, hres, hheadL]
        · simp [distance, get_paths, hba_err, hres', hheadL']
  · intro hab h1 h2 d
    have hn1 : ¬ Rch g a b := fun h => h1 ((mem_descendantSet hb hF).mpr h)
    have hn2 : ¬ Rch g b a := fun h => h2 ((mem_descendantSet hb hF).mpr h)
    have e1 : getPathsAux g (defaultFuel g) a b false true = .error () :=
      (getPathsAux_spec g F hb hF (defaultFuel g) hMle a b false true
        (hsTop a) hab).1.mpr hn1
    have e2 : getPathsAux g (defaultFuel g) b a false false = .error () :=
      (getPathsAux_spec g F hb hF (defaultFuel g) hMle b a false false
        (hsTop b) (Ne.symm hab)).1.mpr hn2
    simp [distance, get_paths, e1, e2]

/-- Concrete instantiation of `C6_distance_spec` on the graph with edges
1 → 2, 2 → 3, 1 → 3, 5 → 6, for the pair (1, 3): node 3 is a strict
descendant of node 1, so the signed distances are 1 and −1. -/
theorem C6_distance_spec_witness :
    dagBound ⟨[⟨1, 1, 2⟩, ⟨2, 2, 3⟩, ⟨3, 1, 3⟩, ⟨4, 5, 6⟩]⟩ 5 ∧
    5 ≤ defaultFuel ⟨[⟨1, 1, 2⟩, ⟨2, 2, 3⟩, ⟨3, 1, 3⟩, ⟨4, 5, 6⟩]⟩ ∧
    defaultFuel ⟨[⟨1, 1, 2⟩, ⟨2, 2, 3⟩, ⟨3, 1, 3⟩, ⟨4, 5, 6⟩]⟩ < sysMaxsize ∧
    (1 : Nat) ≠ 3 ∧
    3 ∈ descendantSet ⟨[⟨1, 1, 2⟩, ⟨2, 2, 3⟩, ⟨3, 1, 3⟩, ⟨4, 5, 6⟩]⟩ 1 ∧
    ∃ k : Nat, isShortest ⟨[⟨1, 1, 2⟩, ⟨2, 2, 3⟩, ⟨3, 1, 3⟩, ⟨4, 5, 6⟩]⟩ 1 3 k ∧ 0 < k ∧
      distance ⟨[⟨1, 1, 2⟩, ⟨2, 2, 3⟩, ⟨3, 1, 3⟩, ⟨4, 5, 6⟩]⟩ 1 3 true = .ok (k : Int) ∧
      distance ⟨[⟨1, 1, 2⟩, ⟨2, 2, 3⟩, ⟨3, 1, 3⟩, ⟨4, 5, 6⟩]⟩ 3 1 true = .ok (-(k : Int)) ∧
      distance ⟨[⟨1, 1, 2⟩, ⟨2, 2, 3⟩, ⟨3, 1, 3⟩, ⟨4, 5, 6⟩]⟩ 1 3 false = .ok (k : Int) ∧
      distance ⟨[⟨1, 1, 2⟩, ⟨2, 2, 3⟩, ⟨3, 1, 3⟩, ⟨4, 5, 6⟩]⟩ 3 1 false = .ok (k : Int) :=
  ⟨by decide, by decide, by decide, by decide, by decide,
    (C6_distance_spec ⟨[⟨1, 1, 2⟩, ⟨2, 2, 3⟩, ⟨3, 1, 3⟩, ⟨4, 5, 6⟩]⟩ 5
      (by decide) (by decide) (by decide) 1 3).2.1 (by decide) (by decide)⟩

/-! ## Root and leaf discovery (`get_roots` / `get_leaves`, standard.py)

`get_roots` materialises `get_ancestors_tree()` — the unrolled mapping
`{parent: parent's own ancestors tree}` — and folds `_get_roots` over it:
`_get_roots(a, at)` returns `{a}` when the subtree `at` is empty, else the
union of the recursive results over `at`'s entries.  Since the subtree
stored under a parent `p` is exactly `p`'s own ancestors tree, the
composition is the recursion `rootsWalk` below, with the same fuel
discipline as the other walks; `get_roots` then substitutes `{self}` when
the union over the (possibly empty) parent list is empty
(`return ... or set([self])`).  `get_leaves`/`_get_leaves` are the mirror
over `get_descendants_tree()`.  The results are sets, so a root or leaf
reached along several paths of the unrolled tree appears once. -/

/-- `_get_roots` / `_get_leaves` composed with the tree unrolling,
parameterised by the adjacency (`parentsOf` for roots, `childrenOf` for
leaves). -/
def rootsWalk (adj : Nat → List Nat) : Nat → Nat → Finset Nat
  | 0, n => {n}
  | fuel + 1, n =>
    if adj n = [] then {n}
    else (adj n).foldr (fun p acc => rootsWalk adj fuel p ∪ acc) ∅

/-- `ProtoNode.get_roots()`. -/
def get_roots (g : Graph) (n : Nat) : Finset Nat :=
  let s := (parentsOf g n).foldr
    (fun p acc => rootsWalk (parentsOf g) (defaultFuel g) p ∪ acc) ∅
  if s = ∅ then {n} else s

/-- `ProtoNode.get_leaves()`. -/
def get_leaves (g : Graph) (n : Nat) : Finset Nat :=
  let s := (childrenOf g n).foldr
    (fun c acc => rootsWalk (childrenOf g) (defaultFuel g) c ∪ acc) ∅
  if s = ∅ then {n} else s

/-! ## Claim C9 -/

/-- C9: for an island node `n` (no parents and no children),
`get_roots(n)` and `get_leaves(n)` are both exactly `{n}`; both results are
sets (`Finset`), hence de-duplicated even when the underlying tree walk
reaches the same root or leaf along several paths. -/
theorem C9_island_roots_leaves (g : Graph) (n : Nat)
    (hp : parentsOf g n = []) (hc : childrenOf g n = []) :
    get_roots g n = {n} ∧ get_leaves g n = {n} ∧
    (get_roots g n).val.Nodup ∧ (get_leaves g n).val.Nodup := by
  refine ⟨?_, ?_, (get_roots g n).nodup, (get_leaves g n).nodup⟩
  · rw [get_roots, hp]
    simp
  · rw [get_leaves, hc]
    simp

/-- Concrete instantiation of `C9_island_roots_leaves`: node 3 is an island
in the graph whose only edge is 1 → 2. -/
theorem C9_island_roots_leaves_witness :
    parentsOf ⟨[⟨1, 1, 2⟩]⟩ 3 = [] ∧ childrenOf ⟨[⟨1, 1, 2⟩]⟩ 3 = [] ∧
    (get_roots ⟨[⟨1, 1, 2⟩]⟩ 3 = {3} ∧ get_leaves ⟨[⟨1, 1, 2⟩]⟩ 3 = {3} ∧
      (get_roots ⟨[⟨1, 1, 2⟩]⟩ 3).val.Nodup ∧ (get_leaves ⟨[⟨1, 1, 2⟩]⟩ 3).val.Nodup) :=
  ⟨by decide, by decide, C9_island_roots_leaves ⟨[⟨1, 1, 2⟩]⟩ 3 (by decide) (by decide)⟩

/-! ## Edge-sequence ordering
(`order_control.py` with the concrete `DagEdgeIntSorter` of
`tests/unit/testapp/models/ordersort.py`)

An ordered edge row additionally carries the integer `sequence` field.
Key arithmetic: the sorter computes with Python floats, but every division
is a halving — exact in floating point for these magnitudes — and every
computed key is stored into an `IntegerField`, which applies `int()`
(truncation toward zero) on save; `key_between` already applies `int()`
itself.  The embedding therefore composes each key expression with the
truncation, written with `Int.tdiv`:
`int(a + (b - a)/2) = (a + b).tdiv 2`, `int(s + (100 - s)/2) =
(s + 100).tdiv 2`, `int(s - s/2) = s.tdiv 2`. -/

structure OEdge where
  eid : Nat
  parent : Nat
  child : Nat
  sequence : Int
deriving DecidableEq, Repr

structure OGraph where
  edges : List OEdge
deriving DecidableEq, Repr

/-- Forget the ordering data (for the cycle check, which reads only the
adjacency). -/
def OGraph.toGraph (g : OGraph) : Graph :=
  ⟨g.edges.map fun e => ⟨e.eid, e.parent, e.child⟩⟩

/-- The python exceptions reachable from the ordering layer.
`nodeSequenceExhaustion` is `django_dag.exceptions.NodeSequenceExhaustion`;
it is declared there but — as proved below — never raised. -/
inductive PyError where
  | validationError (msg : String)
  | invalidNodeInsert
  | invalidNodeMove
  | nodeSequenceExhaustion
  | attributeError (name : String)
  | notImplementedError
  | assertionError
  | indexError
deriving DecidableEq, Repr

/-- The `Position` enum (order_control.py): FIRST, LAST, BEFORE, AFTER.
There is no member `Last`. -/
inductive Position where
  | FIRST
  | LAST
  | BEFORE
  | AFTER
deriving DecidableEq, Repr

/-- Ascending comparison on the edge `sequence` field
(`order_by(sequence)`). -/
def edgeSeqLe (a b : OEdge) : Prop :=
  a.sequence ≤ b.sequence

/-- Descending comparison (`order_by('-sequence')`). -/
def edgeSeqGe (a b : OEdge) : Prop :=
  b.sequence ≤ a.sequence

instance : DecidableRel edgeSeqLe := fun _ _ => Int.decLe _ _

instance : DecidableRel edgeSeqGe := fun _ _ => Int.decLe _ _

instance : IsTotal OEdge edgeSeqLe := ⟨fun _ _ => Int.le_total _ _⟩

instance : IsTrans OEdge edgeSeqLe := ⟨fun _ _ _ => Int.le_trans⟩

instance : IsTotal OEdge edgeSeqGe := ⟨fun _ _ => Int.le_total _ _⟩

instance : IsTrans OEdge edgeSeqGe := ⟨fun _ _ _ h h' => Int.le_trans h' h⟩

/-- `edge_model.objects.filter(parent=p, child=c)` on the ordered edge
model. -/
def oedgesBetween (g : OGraph) (p c : Nat) : List OEdge :=
  g.edges.filter fun e => e.parent == p && e.child == c

/-- `edge_model.objects.get(parent=p, child=c)`: the unique matching row.
With no row, Django raises `ObjectDoesNotExist`, which every caller
modelled here catches and turns into `None`; the claims only exercise
single-row configurations, so the uncaught `MultipleObjectsReturned` case
is also mapped to `none`. -/
def getEdgeOrNone (g : OGraph) (p c : Nat) : Option OEdge :=
  match oedgesBetween g p c with
  | [e] => some e
  | _ => none

/-- `get_sorted_edge_queryset(node, target, source)` of the edge-order
controller: the rows with `source` = the node, ordered by the `sequence`
field ascending (here instantiated to its only use in the claims:
children of a parent). -/
def get_sorted_edge_queryset (g : OGraph) (node : Nat) : List OEdge :=
  List.insertionSort edgeSeqLe (g.edges.filter fun e => e.parent == node)

/-- The children of `node` as listed by the sorted edge queryset,
in ascending sequence order. -/
def sortedSiblings (g : OGraph) (node : Nat) : List Nat :=
  (get_sorted_edge_queryset g node).map OEdge.child

/-- `DagEdgeIntSorter.get_next_sibling(basenode, parent_node)`: among the
rows off `parent` with a sequence strictly greater than the
(parent, basenode) row's, the one with the least sequence; its child. -/
def get_next_sibling (g : OGraph) (basenode parent : Nat) : Option Nat :=
  match getEdgeOrNone g parent basenode with
  | none => none
  | some base =>
    (List.insertionSort edgeSeqLe
      (g.edges.filter fun e =>
        e.parent == parent && decide (base.sequence < e.sequence))).head?.map OEdge.child

/-- `DagEdgeIntSorter.get_prev_sibling(basenode, parent_node)`: the mirror
of `get_next_sibling`, ordered descending. -/
def get_prev_sibling (g : OGraph) (basenode parent : Nat) : Option Nat :=
  match getEdgeOrNone g parent basenode with
  | none => none
  | some base =>
    (List.insertionSort edgeSeqGe
      (g.edges.filter fun e =>
        e.parent == parent && decide (e.sequence < base.sequence))).head?.map OEdge.child

/-- `DagEdgeIntSorter.key_between(instance, other, parent)`: the two
sequences of the rows parent → {instance, other} in ascending order as
`[a, b]`; returns `int(a + (b - a)/2) = (a + b).tdiv 2`.  The `assert`
demands exactly two rows (an `AssertionError` otherwise). -/
def key_between (g : OGraph) (inst other parent : Nat) : Except PyError Int :=
  match (List.insertionSort edgeSeqLe
      (g.edges.filter fun e =>
        e.parent == parent && (e.child == inst || e.child == other))).map OEdge.sequence with
  | [a, b] => .ok ((a + b).tdiv 2)
  | _ => .error .assertionError

/-- `DagEdgeIntSorter.next_key(instance, parent)`:
`edges[0] + (100 - edges[0])/2`, stored truncated: `(s + 100).tdiv 2`.
An empty queryset makes `edges[0]` raise `IndexError`. -/
def next_key (g : OGraph) (inst parent : Nat) : Except PyError Int :=
  match (oedgesBetween g parent inst).map OEdge.sequence with
  | [] => .error .indexError
  | s :: _ => .ok ((s + 100).tdiv 2)

/-- `DagEdgeIntSorter.prev_key(instance, parent)`:
`edges[0] - edges[0]/2`, stored truncated: `s.tdiv 2`. -/
def prev_key (g : OGraph) (inst parent : Nat) : Except PyError Int :=
  match (oedgesBetween g parent inst).map OEdge.sequence with
  | [] => .error .indexError
  | s :: _ => .ok (s.tdiv 2)

/-- `BaseDagOrderController.first_key()`: `raise NotImplementedError` — the
concrete sorters define `initial_key` instead, which the insertion code
never calls. -/
def first_key : Except PyError Int :=
  .error .notImplementedError

/-- `BaseNode.add_child(descendant, sequence=...)` with edge ordering:
`Edge.save` runs the circular checker and then persists the row, the
sequence stored into the integer field. -/
def add_child_seq (g : OGraph) (parent child : Nat) (sequence : Int) :
    Except PyError OGraph :=
  match circular_checker g.toGraph parent child with
  | .error msg => .error (.validationError msg)
  | .ok _ => .ok ⟨g.edges ++ [⟨g.edges.length + 1, parent, child, sequence⟩]⟩

/-- `BaseDagOrderController.get_first_child(basenode)`: the child of the
first row of the sorted edge queryset, if any. -/
def get_first_child (g : OGraph) (parent : Nat) : Option Nat :=
  (get_sorted_edge_queryset g parent).head?.map OEdge.child

/-- `BaseDagOrderController.insert_child_before(descendant, parent_node,
after)`: with no sibling given, the base-class `first_key()`; else
interpolate against the previous sibling via `key_between(after, before)`,
or `prev_key` at the open end; then `add_child` with the computed
sequence. -/
def insert_child_before (g : OGraph) (descendant parent : Nat)
    (after : Option Nat) : Except PyError (Int × OGraph) :=
  (match after with
   | none => first_key
   | some a =>
     match get_prev_sibling g a parent with
     | some before => key_between g a before parent
     | none => prev_key g a parent).bind fun seq =>
    (add_child_seq g parent descendant seq).map fun g' => (seq, g')

/-- `BaseDagOrderController.insert_child_after(descendant, parent_node,
before)`: symmetric to `insert_child_before`, interpolating via
`key_between(after, before)` against the next sibling, or `next_key` at the
open end. -/
def insert_child_after (g : OGraph) (descendant parent : Nat)
    (before : Option Nat) : Except PyError (Int × OGraph) :=
  (match before with
   | none => first_key
   | some b =>
     match get_next_sibling g b parent with
     | some after => key_between g after b parent
     | none => next_key g b parent).bind fun seq =>
    (add_child_seq g parent descendant seq).map fun g' => (seq, g')

deriving instance DecidableEq for Except

/-! ## Claim C7 -/

/-- C7: with edges (parent=1, child=5, seq=12), (1, 6, 8), (1, 7, 4), the
sorted sibling query for parent 1 yields [7, 6, 5] in ascending key order;
inserting node 9 after node 7 finds 6 (key 8) as the next sibling and
assigns 9 the `key_between` midpoint 6, strictly between 4 and 8, stored on
the persisted edge. -/
theorem C7_ordering_scenario :
    sortedSiblings ⟨[⟨1, 1, 5, 12⟩, ⟨2, 1, 6, 8⟩, ⟨3, 1, 7, 4⟩]⟩ 1 = [7, 6, 5] ∧
    get_next_sibling ⟨[⟨1, 1, 5, 12⟩, ⟨2, 1, 6, 8⟩, ⟨3, 1, 7, 4⟩]⟩ 7 1 = some 6 ∧
    key_between ⟨[⟨1, 1, 5, 12⟩, ⟨2, 1, 6, 8⟩, ⟨3, 1, 7, 4⟩]⟩ 6 7 1 = .ok 6 ∧
    insert_child_after ⟨[⟨1, 1, 5, 12⟩, ⟨2, 1, 6, 8⟩, ⟨3, 1, 7, 4⟩]⟩ 9 1 (some 7)
      = .ok (6, ⟨[⟨1, 1, 5, 12⟩, ⟨2, 1, 6, 8⟩, ⟨3, 1, 7, 4⟩, ⟨4, 1, 9, 6⟩]⟩) ∧
    (4 : Int) < 6 ∧ (6 : Int) < 8 := by
  decide

/-! ## Claim C8

`NodeSequenceExhaustion` is declared in `django_dag/exceptions.py` but no
code in the repository ever raises it; the integer sorters (docstring:
"Broken Integer implementation") return the truncated midpoint even when
no distinct intermediate key exists. -/

/-- C8 counterexample: children 5 (key 4) and 6 (key 5) of parent 1 have
adjacent integer keys with no representable key strictly between them, yet
`key_between` returns `ok 4` — the lower existing key — instead of raising
`NodeSequenceExhaustion`. -/
theorem C8_counterexample :
    key_between ⟨[⟨1, 1, 5, 4⟩, ⟨2, 1, 6, 5⟩]⟩ 5 6 1 = .ok 4 ∧
    (Except.ok 4 : Except PyError Int) ≠ .error .nodeSequenceExhaustion := by
  decide

/-- C8 amended: `key_between` never raises `NodeSequenceExhaustion` (its
only error is the `AssertionError` of its two-row assert); for adjacent
integer keys `a`, `a + 1` it returns one of the two existing keys (`a`
when `0 ≤ a`, else `a + 1`) rather than a distinct intermediate value, so
repeated boundary insertion silently duplicates keys instead of raising. -/
theorem C8_key_between_never_exhausts :
    (∀ (g : OGraph) (inst other parent : Nat),
      key_between g inst other parent ≠ .error .nodeSequenceExhaustion) ∧
    (∀ a : Int,
      key_between ⟨[⟨1, 1, 5, a⟩, ⟨2, 1, 6, a + 1⟩]⟩ 5 6 1
        = .ok (if 0 ≤ a then a else a + 1) ∧
      ((if 0 ≤ a then a else (a + 1 : Int)) = a ∨
        (if 0 ≤ a then a else (a + 1 : Int)) = a + 1)) := by
  constructor
  · intro g inst other parent
    rw [key_between]
    split <;> simp
  · intro a
    refine ⟨?_, by split <;> simp⟩
    have hfil : (⟨[⟨1, 1, 5, a⟩, ⟨2, 1, 6, a + 1⟩]⟩ : OGraph).edges.filter
        (fun e => e.parent == 1 && (e.child == 5 || e.child == 6))
        = [⟨1, 1, 5, a⟩, ⟨2, 1, 6, a + 1⟩] := rfl
    have hord : edgeSeqLe (⟨1, 1, 5, a⟩ : OEdge) ⟨2, 1, 6, a + 1⟩ := by
      show a ≤ a + 1
      omega
    have hsort : List.insertionSort edgeSeqLe [(⟨1, 1, 5, a⟩ : OEdge), ⟨2, 1, 6, a + 1⟩]
        = [⟨1, 1, 5, a⟩, ⟨2, 1, 6, a + 1⟩] := by
      simp [List.insertionSort, List.orderedInsert, hord]
    have hmap : (List.insertionSort edgeSeqLe
        ((⟨[⟨1, 1, 5, a⟩, ⟨2, 1, 6, a + 1⟩]⟩ : OGraph).edges.filter
          (fun e => e.parent == 1 && (e.child == 5 || e.child == 6)))).map OEdge.sequence
        = [a, a + 1] := by
      rw [hfil, hsort]
      rfl
    rw [key_between, hmap]
    show Except.ok ((a + (a + 1)).tdiv 2) = _
    have h2 : a + (a + 1) = 2 * a + 1 := by ring
    rw [h2]
    by_cases ha : 0 ≤ a
    · rw [if_pos ha, Int.tdiv_eq_ediv (by omega) (by omega)]
      congr 1
      omega
    · rw [if_neg ha]
      have hneg : 2 * a + 1 = -(2 * (-a) - 1) := by ring
      rw [hneg, Int.neg_tdiv, Int.tdiv_eq_ediv (by omega) (by omega)]
      congr 1
      omega

/-! ## Claim C10 -/

/-- `BaseDagOrderController.insert_child(descendant, parent_node,
position)` (order_control.py): `Position.FIRST` inserts before the current
first child.  Every other position evaluates the `elif` comparison
`position == Position.Last`; the `Position` enum has no member `Last`, so
Python raises `AttributeError: Last` before any comparison or the final
`raise InvalidNodeInsert()` can run. -/
def insert_child (g : OGraph) (descendant parent : Nat) (position : Position) :
    Except PyError (Int × OGraph) :=
  if position = Position.FIRST then
    insert_child_before g descendant parent (get_first_child g parent)
  else
    .error (.attributeError "Last")

theorem prev_key_error {g : OGraph} {i p : Nat} {pe : PyError}
    (h : prev_key g i p = .error pe) : pe = .indexError := by
  rw [prev_key] at h
  split at h
  · cases h
    rfl
  · cases h

theorem next_key_error {g : OGraph} {i p : Nat} {pe : PyError}
    (h : next_key g i p = .error pe) : pe = .indexError := by
  rw [next_key] at h
  split at h
  · cases h
    rfl
  · cases h

theorem key_between_error {g : OGraph} {i o p : Nat} {pe : PyError}
    (h : key_between g i o p = .error pe) : pe = .assertionError := by
  rw [key_between] at h
  split at h
  · cases h
  · cases h
    rfl

theorem add_child_seq_error {g : OGraph} {p c : Nat} {s : Int} {pe : PyError}
    (h : add_child_seq g p c s = .error pe) : ∃ msg, pe = .validationError msg := by
  rw [add_child_seq] at h
  split at h
  · cases h
    exact ⟨_, rfl⟩
  · cases h

/-- `insert_child_before` can fail with `NotImplementedError`,
`IndexError`, `AssertionError` or a cycle `ValidationError`, but never with
`InvalidNodeInsert`. -/
theorem insert_child_before_no_invalid (g : OGraph) (d p : Nat)
    (after : Option Nat) :
    insert_child_before g d p after ≠ .error .invalidNodeInsert := by
  rw [insert_child_before.eq_def]
  have hadd : ∀ s : Int,
      ((add_child_seq g p d s).map fun g' => (s, g')) ≠ .error .invalidNodeInsert := by
    intro s habs
    cases hac : add_child_seq g p d s with
    | error pe =>
      obtain ⟨msg, rfl⟩ := add_child_seq_error hac
      rw [hac] at habs
      cases habs
    | ok g' =>
      rw [hac] at habs
      cases habs
  rcases after with _ | a
  · simp [first_key, Except.bind]
  · rcases hps : get_prev_sibling g a p with _ | b
    · cases hpk : prev_key g a p with
      | error pe =>
        have := prev_key_error hpk
        subst this
        simp [hps, hpk, Except.bind]
      | ok s =>
        simpa [hps, hpk, Except.bind] using hadd s
    · cases hkb : key_between g a b p with
      | error pe =>
        have := key_between_error hkb
        subst this
        simp [hps, hkb, Except.bind]
      | ok s =>
        simpa [hps, hkb, Except.bind] using hadd s

/-- In a sorted sibling queryset beginning with `e`, every sibling edge of
the same parent has a sequence at least `e`'s. -/
theorem sorted_head_min {g : OGraph} {parent : Nat} {e : OEdge} {rest : List OEdge}
    (h : get_sorted_edge_queryset g parent = e :: rest) :
    ∀ x ∈ g.edges, x.parent = parent → e.sequence ≤ x.sequence := by
  intro x hx hp
  have hxf : x ∈ g.edges.filter (fun e => e.parent == parent) :=
    List.mem_filter.mpr ⟨hx, by simp [hp]⟩
  have hxs : x ∈ get_sorted_edge_queryset g parent := by
    rw [get_sorted_edge_queryset]
    exact (List.perm_insertionSort edgeSeqLe _).mem_iff.mpr hxf
  rw [h] at hxs
  rcases List.mem_cons.mp hxs with rfl | hmem
  · exact le_refl _
  · have hs : List.Sorted edgeSeqLe (e :: rest) := by
      rw [← h, get_sorted_edge_queryset]
      exact List.sorted_insertionSort edgeSeqLe _
    exact List.rel_of_sorted_cons hs x hmem

/-- The first child of the sorted queryset has no previous sibling. -/
theorem first_child_no_prev {g : OGraph} {parent : Nat} {e : OEdge}
    {rest : List OEdge}
    (h : get_sorted_edge_queryset g parent = e :: rest)
    (hu : oedgesBetween g parent e.child = [e]) :
    get_prev_sibling g e.child parent = none := by
  rw [get_prev_sibling, getEdgeOrNone, hu]
  have hfil : g.edges.filter
      (fun x => x.parent == parent && decide (x.sequence < e.sequence)) = [] := by
    rw [List.filter_eq_nil_iff]
    intro x hx
    simp only [Bool.and_eq_true, beq_iff_eq, decide_eq_true_eq, not_and]
    intro hp hlt
    exact absurd hlt (not_lt.mpr (sorted_head_min h x hx hp))
  simp [hfil]

/-- C10 counterexample: `Position.BEFORE` does not raise
`InvalidNodeInsert`; it raises `AttributeError: Last`, because the `elif`
comparison references the nonexistent member `Position.Last` before the
`else` branch can be reached. -/
theorem C10_counterexample :
    insert_child ⟨[⟨1, 1, 2, 4⟩]⟩ 9 1 Position.BEFORE
      = .error (.attributeError "Last") ∧
    insert_child ⟨[⟨1, 1, 2, 4⟩]⟩ 9 1 Position.AFTER
      = .error (.attributeError "Last") ∧
    PyError.attributeError "Last" ≠ PyError.invalidNodeInsert := by
  refine ⟨rfl, rfl, by simp⟩

/-- C10 amended: `insert_child` succeeds only for `Position.FIRST`
(inserting before the current first child, via `prev_key` on it); every
other position — LAST, BEFORE and AFTER alike — raises
`AttributeError: Last` from the reference to the nonexistent enum member
`Position.Last`, and `InvalidNodeInsert` is unreachable for every input. -/
theorem C10_insert_child_spec :
    (∀ (g : OGraph) (descendant parent : Nat) (pos : Position),
      pos ≠ Position.FIRST →
      insert_child g descendant parent pos = .error (.attributeError "Last")) ∧
    (∀ (g : OGraph) (descendant parent : Nat) (pos : Position),
      insert_child g descendant parent pos ≠ .error .invalidNodeInsert) ∧
    (∀ (g : OGraph) (descendant parent : Nat) (e : OEdge) (rest : List OEdge),
      get_sorted_edge_queryset g parent = e :: rest →
      oedgesBetween g parent e.child = [e] →
      parent ≠ descendant →
      descendant ∉ ancestorSet g.toGraph parent →
      insert_child g descendant parent Position.FIRST
        = .ok (e.sequence.tdiv 2,
            ⟨g.edges ++ [⟨g.edges.length + 1, parent, descendant, e.sequence.tdiv 2⟩]⟩)) := by
  refine ⟨?_, ?_, ?_⟩
  · intro g descendant parent pos hpos
    rw [insert_child, if_neg hpos]
  · intro g descendant parent pos
    by_cases hpos : pos = Position.FIRST
    · rw [insert_child, if_pos hpos]
      exact insert_child_before_no_invalid g descendant parent _
    · rw [insert_child, if_neg hpos]
      simp
  · intro g descendant parent e rest hsorted hu hpd hanc
    have hfc : get_first_child g parent = some e.child := by
      rw [get_first_child, hsorted]
      rfl
    have hprev := first_child_no_prev hsorted hu
    have hpk : prev_key g e.child parent = .ok (e.sequence.tdiv 2) := by
      rw [prev_key, hu]
      rfl
    have hcc : circular_checker g.toGraph parent descendant = .ok () := by
      rw [circular_checker, if_neg hpd, if_neg hanc]
    rw [insert_child, if_pos rfl, hfc, insert_child_before.eq_def]
    simp [hprev, hpk, add_child_seq, hcc, Except.bind, Except.map]

/-- Concrete instantiation of `C10_insert_child_spec`: with the single
edge 1 → 2 (key 4), inserting 9 at FIRST succeeds with key
`Int.tdiv 4 2 = 2`. -/
theorem C10_insert_child_spec_witness :
    get_sorted_edge_queryset ⟨[⟨1, 1, 2, 4⟩]⟩ 1 = [⟨1, 1, 2, 4⟩] ∧
    oedgesBetween ⟨[⟨1, 1, 2, 4⟩]⟩ 1 2 = [⟨1, 1, 2, 4⟩] ∧
    (1 : Nat) ≠ 9 ∧
    (9 : Nat) ∉ ancestorSet (OGraph.toGraph ⟨[⟨1, 1, 2, 4⟩]⟩) 1 ∧
    insert_child ⟨[⟨1, 1, 2, 4⟩]⟩ 9 1 Position.FIRST
      = .ok (Int.tdiv 4 2, ⟨[⟨1, 1, 2, 4⟩, ⟨2, 1, 9, Int.tdiv 4 2⟩]⟩) ∧
    Position.LAST ≠ Position.FIRST ∧
    insert_child ⟨[⟨1, 1, 2, 4⟩]⟩ 9 1 Position.LAST
      = .error (.attributeError "Last") :=
  ⟨by decide, by decide, by decide, by decide,
    C10_insert_child_spec.2.2 ⟨[⟨1, 1, 2, 4⟩]⟩ 9 1 ⟨1, 1, 2, 4⟩ []
      (by decide) (by decide) (by decide) (by decide),
    by decide,
    C10_insert_child_spec.1 ⟨[⟨1, 1, 2, 4⟩]⟩ 9 1 Position.LAST (by decide)⟩

end DjangoDag
